import Mathlib

/-!
# A model of `bevy_lookup_curve` (`src/lib.rs`)

Shallow embedding of the lookup-curve library: a `LookupCurve` owns a list of
`Knot`s sorted by `position.x`; sampling (`find_y_given_x`) binary-searches the
list and interpolates (constant / linear / cubic Bezier with corrected
tangents); mutation (`modify_knot`, `delete_knot`) keeps the list sorted.

Numeric model: the Rust code computes with `f32`.  The main model replaces
`f32` by `ℚ` (exact arithmetic, no NaN) — this is the "well-formed float"
world in which all ordering/indexing claims live.  The two behaviours that
hinge on NaN (the panicking comparator in `LookupCurve::new`, and the
underflowing index computation in `find_y_given_x` for a NaN query) are
modelled separately with the type `F` (`nan` or a rational), whose comparisons
are `false` whenever a NaN is involved, exactly like `f32`'s `PartialOrd`.
-/

/-- Model of `glam::Vec2` restricted to the operations the library uses,
with exact rational coordinates. -/
structure Vec2 where
  x : ℚ
  y : ℚ
deriving DecidableEq

namespace Vec2

instance : Add Vec2 := ⟨fun a b => ⟨a.x + b.x, a.y + b.y⟩⟩

instance : Sub Vec2 := ⟨fun a b => ⟨a.x - b.x, a.y - b.y⟩⟩

/-- `Vec2 * f32` (componentwise scale), as used by `a + b * t + ...`. -/
instance : HMul Vec2 ℚ Vec2 := ⟨fun a s => ⟨a.x * s, a.y * s⟩⟩

/-- `Vec2::ZERO`. -/
def ZERO : Vec2 := ⟨0, 0⟩

/-- `glam`'s `Vec2::lerp(self, rhs, s) = self + (rhs - self) * s`. -/
def lerp (a b : Vec2) (s : ℚ) : Vec2 := a + (b - a) * s

@[simp] theorem add_x (a b : Vec2) : (a + b).x = a.x + b.x := rfl

@[simp] theorem add_y (a b : Vec2) : (a + b).y = a.y + b.y := rfl

@[simp] theorem sub_x (a b : Vec2) : (a - b).x = a.x - b.x := rfl

@[simp] theorem sub_y (a b : Vec2) : (a - b).y = a.y - b.y := rfl

@[simp] theorem hmul_x (a : Vec2) (s : ℚ) : (a * s).x = a.x * s := rfl

@[simp] theorem hmul_y (a : Vec2) (s : ℚ) : (a * s).y = a.y * s := rfl

@[simp] theorem zero_x : ZERO.x = 0 := rfl

@[simp] theorem zero_y : ZERO.y = 0 := rfl

end Vec2

/-- `enum KnotInterpolation { Constant, Linear, Bezier }`. -/
inductive KnotInterpolation where
  | Constant : KnotInterpolation
  | Linear : KnotInterpolation
  | Bezier : KnotInterpolation
deriving DecidableEq

/-- `struct Knot` (`id` is the stable editor identity, irrelevant to ordering). -/
structure Knot where
  position : Vec2
  interpolation : KnotInterpolation
  id : ℕ
  left_tangent : Vec2
  right_tangent : Vec2
deriving DecidableEq

/-- `impl Default for Knot`. -/
instance : Inhabited Knot :=
  ⟨{ position := Vec2.ZERO
     interpolation := KnotInterpolation.Linear
     id := 0
     right_tangent := ⟨1/10, 0⟩
     left_tangent := ⟨-(1/10), 0⟩ }⟩

namespace Knot

/-- `Knot::left_tangent_corrected`: the left tangent, clamped so the curve
cannot go backwards past the previous knot. -/
def left_tangent_corrected (k : Knot) (prev_knot : Option Knot) : Vec2 :=
  if k.left_tangent.x ≥ 0 then ⟨0, k.left_tangent.y⟩
  else
    match prev_knot with
    | some prev =>
      let min_x := prev.position.x - k.position.x
      if k.left_tangent.x < min_x then
        ⟨min_x, k.left_tangent.y * (min_x / k.left_tangent.x)⟩
      else k.left_tangent
    | none => k.left_tangent

/-- `Knot::right_tangent_corrected`: mirror image of `left_tangent_corrected`. -/
def right_tangent_corrected (k : Knot) (next_knot : Option Knot) : Vec2 :=
  if k.right_tangent.x ≤ 0 then ⟨0, k.right_tangent.y⟩
  else
    match next_knot with
    | some next =>
      let max_x := next.position.x - k.position.x
      if k.right_tangent.x > max_x then
        ⟨max_x, k.right_tangent.y * (max_x / k.right_tangent.x)⟩
      else k.right_tangent
    | none => k.right_tangent

end Knot

/-- `struct CubicSegment { coeff: [Vec2; 4] }`, with the four coefficient
vectors as fields `a b c d` (the names used when the array is destructured). -/
structure CubicSegment where
  a : Vec2
  b : Vec2
  c : Vec2
  d : Vec2
deriving DecidableEq

namespace CubicSegment

/-- `CubicSegment::position`: `a + b * t + c * t^2 + d * t^3`. -/
def position (s : CubicSegment) (t : ℚ) : Vec2 :=
  s.a + s.b * t + s.c * t ^ 2 + s.d * t ^ 3

/-- `CubicSegment::velocity`: `b + c * 2.0 * t + d * 3.0 * t^2`. -/
def velocity (s : CubicSegment) (t : ℚ) : Vec2 :=
  s.b + s.c * (2 : ℚ) * t + s.d * (3 : ℚ) * t ^ 2

/-- `CubicSegment::coefficients(p, multiplier, char_matrix)`: the polynomial
coefficients, the characteristic matrix applied row by row to the four control
points and scaled by `multiplier`. -/
def coefficients (p0 p1 p2 p3 : Vec2) (multiplier : ℚ)
    (c0 c1 c2 c3 : ℚ × ℚ × ℚ × ℚ) : CubicSegment :=
  { a := (p0 * c0.1 + p1 * c0.2.1 + p2 * c0.2.2.1 + p3 * c0.2.2.2) * multiplier
    b := (p0 * c1.1 + p1 * c1.2.1 + p2 * c1.2.2.1 + p3 * c1.2.2.2) * multiplier
    c := (p0 * c2.1 + p1 * c2.2.1 + p2 * c2.2.2.1 + p3 * c2.2.2.2) * multiplier
    d := (p0 * c3.1 + p1 * c3.2.1 + p2 * c3.2.2.1 + p3 * c3.2.2.2) * multiplier }

/-- `CubicSegment::from_bezier_points`: the Bezier characteristic matrix
`[[1,0,0,0],[-3,3,0,0],[3,-6,3,0],[-1,3,-3,1]]` with multiplier `1.0`. -/
def from_bezier_points (p0 p1 p2 p3 : Vec2) : CubicSegment :=
  coefficients p0 p1 p2 p3 1
    (1, 0, 0, 0) (-3, 3, 0, 0) (3, -6, 3, 0) (-1, 3, -3, 1)

/-- `MAX_ERROR: f32 = 1e-5`. -/
def maxError : ℚ := 1 / 100000

/-- The body of the `for _ in 0..MAX_ITERS` loop of
`CubicSegment::find_y_given_x`, with the remaining iteration count as fuel.
Each iteration computes `pos = position(t)`; it returns `pos` on early
convergence (`|pos.x - x| ≤ MAX_ERROR`) and also when it was the last
iteration; otherwise it takes a Newton step `t - (pos.x - x) / velocity(t).x`.
With fuel `0` the loop body never ran and `pos_guess` is still `Vec2::ZERO`. -/
def newtonLoop (s : CubicSegment) (x : ℚ) : ℕ → ℚ → Vec2
  | 0, _ => Vec2.ZERO
  | n + 1, t =>
    let pos := s.position t
    let error := pos.x - x
    if |error| ≤ maxError then pos
    else
      match n with
      | 0 => pos
      | m + 1 => newtonLoop s x (m + 1) (t - error / (s.velocity t).x)

/-- `CubicSegment::find_y_given_x`: 8 Newton iterations starting at
`t_guess = x`, returning the y of the last computed position. -/
def find_y_given_x (s : CubicSegment) (x : ℚ) : ℚ :=
  (newtonLoop s x 8 x).y

end CubicSegment

/-- Rust `slice::partition_point(pred)`: assuming the slice is partitioned
(`pred` holds on a prefix and fails from some index on, which is the case at
every call site: the list is sorted by `x` and `pred` compares `x` against a
fixed bound), it returns the length of that prefix.  When `pred` holds
nowhere — in particular when every comparison is against a NaN and therefore
`false` — the binary search returns `0`, as does this model. -/
def partitionPoint {α : Type} (p : α → Bool) (l : List α) : ℕ :=
  (l.takeWhile p).length

/-- `struct LookupCurve { knots: Vec<Knot> }`. -/
structure LookupCurve where
  knots : List Knot

namespace LookupCurve

/-- The comparison `a.position.x.partial_cmp(&b.position.x)` used by
`LookupCurve::new`, in the NaN-free world where it is total. -/
def byX (a b : Knot) : Prop := a.position.x ≤ b.position.x

instance : DecidableRel byX := fun a b =>
  inferInstanceAs (Decidable (a.position.x ≤ b.position.x))

/-- `LookupCurve::new`: sort the knots by `position.x`.  Rust's `sort_by` is
stable; `List.insertionSort` is the stable sort producing the same
(unique) stable-sorted permutation. -/
def new (knots : List Knot) : LookupCurve :=
  ⟨List.insertionSort byX knots⟩

/-- `LookupCurve::modify_knot`.  `self.knots[i]` is modelled by `getD i
default`; the claims about this operation all carry the precondition
`i < knots.length` under which the two agree (out of bounds, Rust panics). -/
def modify_knot (curve : LookupCurve) (i : ℕ) (new_value : Knot) :
    LookupCurve × ℕ :=
  let old_value := curve.knots.getD i default
  if old_value.position = new_value.position then
    (⟨curve.knots.set i new_value⟩, i)
  else
    let new_i :=
      partitionPoint (fun knot => decide (knot.position.x < new_value.position.x))
        curve.knots
    if new_i = i then
      (⟨curve.knots.set i new_value⟩, i)
    else
      let removed := curve.knots.eraseIdx i
      let insert_i := if i < new_i then new_i - 1 else new_i
      (⟨removed.insertIdx insert_i new_value⟩, insert_i)

/-- `LookupCurve::delete_knot`: `self.knots.remove(i)`. -/
def delete_knot (curve : LookupCurve) (i : ℕ) : LookupCurve :=
  ⟨curve.knots.eraseIdx i⟩

/-- `LookupCurve::find_y_given_x`.  The two interior index accesses
`self.knots[i]` / `self.knots[i+1]` are modelled by `getD _ default`; they are
provably in bounds whenever this branch is reached (the partition point of a
rational query lies strictly between `0` and `knots.len()`, see the
`find_left_index` theorems), so the default is never consulted. -/
def find_y_given_x (curve : LookupCurve) (x : ℚ) : ℚ :=
  match curve.knots with
  | [] => 0
  | k0 :: rest =>
    if rest.length = 0 ∨ x ≤ k0.position.x then k0.position.y
    else
      let last := (k0 :: rest).getLast (List.cons_ne_nil _ _)
      if last.position.x ≤ x then last.position.y
      else
        let i := partitionPoint (fun knot => decide (knot.position.x < x)) (k0 :: rest) - 1
        let knot_a := (k0 :: rest).getD i default
        match knot_a.interpolation with
        | KnotInterpolation.Constant => knot_a.position.y
        | KnotInterpolation.Linear =>
          let knot_b := (k0 :: rest).getD (i + 1) default
          (Vec2.lerp knot_a.position knot_b.position
            ((x - knot_a.position.x) / (knot_b.position.x - knot_a.position.x))).y
        | KnotInterpolation.Bezier =>
          let knot_b := (k0 :: rest).getD (i + 1) default
          (CubicSegment.from_bezier_points
            knot_a.position
            (knot_a.position + knot_a.right_tangent_corrected (some knot_b))
            (knot_b.position + knot_b.left_tangent_corrected (some knot_a))
            knot_b.position).find_y_given_x x

end LookupCurve

/-!
## The NaN-aware fragment

`F` models an `f32` x-coordinate that may be NaN; all comparisons involving
NaN are `false`, as for `f32`'s `PartialOrd`.
-/

/-- An `f32` value: NaN or a (finite, exact) rational. -/
inductive F where
  | nan : F
  | val : ℚ → F
deriving DecidableEq

namespace F

/-- `is_nan`. -/
def isNaN : F → Bool
  | nan => true
  | val _ => false

/-- `<=` on `f32`: false whenever a NaN is involved. -/
def fle : F → F → Bool
  | val a, val b => decide (a ≤ b)
  | _, _ => false

/-- `<` on `f32`: false whenever a NaN is involved. -/
def flt : F → F → Bool
  | val a, val b => decide (a < b)
  | _, _ => false

end F

/-- The fields of `Knot` that `LookupCurve::new` consults: the position, whose
x-coordinate may be NaN. -/
structure KnotF where
  position : F × ℚ
deriving DecidableEq

namespace KnotF

/-- `a.position.x.partial_cmp(&b.position.x)` reduced to "is `a ≤ b`":
`none` models the `None` that makes `.expect("NaN is not allowed")` panic. -/
def cmpX (a b : KnotF) : Option Bool :=
  match a.position.1, b.position.1 with
  | F.val p, F.val q => some (decide (p ≤ q))
  | _, _ => none

end KnotF

/-- One insertion step of the stable insertion sort performed by
`knots.sort_by(..)`, in the `Option` monad: `none` models the abort raised by
`.expect("NaN is not allowed")` as soon as a comparison involves a NaN. -/
def orderedInsertF (a : KnotF) : List KnotF → Option (List KnotF)
  | [] => some [a]
  | b :: l =>
    match a.cmpX b with
    | none => none
    | some true => some (a :: b :: l)
    | some false => (orderedInsertF a l).map (b :: ·)

/-- The stable sort of `knots.sort_by(..)` in the `Option` monad.  A slice of
length `< 2` is sorted without any comparison (so a lone NaN knot never
reaches the comparator); every longer slice compares each element at least
once. -/
def insertionSortF : List KnotF → Option (List KnotF)
  | [] => some []
  | a :: l => (insertionSortF l).bind (orderedInsertF a)

/-- `LookupCurve::new` in the NaN-aware model: `none` means the construction
panicked in the sort comparator. -/
def LookupCurve.newF (knots : List KnotF) : Option (List KnotF) :=
  insertionSortF knots

/-- The guard-and-search prefix of `LookupCurve::find_y_given_x` (the early
returns and the `partition_point` producing the left-knot index `i`, lines
137–148), for a query `x` that may be NaN.  `none` means one of the early
returns fired before any indexing; `some z` means the interior branch computed
`i = partition_point - 1`, as an integer so that the `usize` underflow of
`0 - 1` is visible as `z < 0`. -/
def LookupCurve.find_left_index (curve : LookupCurve) (x : F) : Option ℤ :=
  match curve.knots with
  | [] => none
  | k0 :: rest =>
    if rest.length = 0 ∨ (x.fle (F.val k0.position.x)) then none
    else
      let last := (k0 :: rest).getLast (List.cons_ne_nil _ _)
      if (F.val last.position.x).fle x then none
      else
        some ((partitionPoint (fun knot => (F.val knot.position.x).flt x)
          (k0 :: rest) : ℤ) - 1)

/-!
## Basic facts about `partitionPoint`
-/

theorem partitionPoint_le_length {α : Type} (p : α → Bool) (l : List α) :
    partitionPoint p l ≤ l.length :=
  (l.takeWhile_prefix p).length_le

theorem pred_true_of_lt_partitionPoint {α : Type} {p : α → Bool} {l : List α} {k : ℕ}
    (hk : k < l.length) (h : k < partitionPoint p l) : p l[k] = true := by
  induction l generalizing k with
  | nil => simp [partitionPoint] at h
  | cons a t ih =>
    by_cases hpa : p a = true
    · have hstep : partitionPoint p (a :: t) = partitionPoint p t + 1 := by
        simp [partitionPoint, List.takeWhile_cons, hpa]
      cases k with
      | zero => simpa using hpa
      | succ k =>
        rw [hstep] at h
        simpa using ih (by simpa using hk) (by omega)
    · have h0 : partitionPoint p (a :: t) = 0 := by
        simp [partitionPoint, List.takeWhile_cons, hpa]
      rw [h0] at h
      omega

theorem pred_false_at_partitionPoint {α : Type} {p : α → Bool} {l : List α}
    (h : partitionPoint p l < l.length) : p l[partitionPoint p l] = false := by
  induction l with
  | nil => simp at h
  | cons a t ih =>
    by_cases hpa : p a = true
    · have hstep : partitionPoint p (a :: t) = partitionPoint p t + 1 := by
        simp [partitionPoint, List.takeWhile_cons, hpa]
      rw [hstep] at h
      simp only [List.length_cons] at h
      simp only [hstep, List.getElem_cons_succ]
      exact ih (by omega)
    · have h0 : partitionPoint p (a :: t) = 0 := by
        simp [partitionPoint, List.takeWhile_cons, hpa]
      simp only [h0, List.getElem_cons_zero]
      simpa using hpa

theorem partitionPoint_eq {α : Type} {p : α → Bool} {l : List α} {j : ℕ}
    (hj : j < l.length) (htrue : ∀ k (hk : k < l.length), k < j → p l[k] = true)
    (hfalse : p l[j] = false) : partitionPoint p l = j := by
  rcases lt_trichotomy (partitionPoint p l) j with h | h | h
  · have hlt : partitionPoint p l < l.length := lt_trans h hj
    have := htrue _ hlt h
    rw [pred_false_at_partitionPoint hlt] at this
    exact absurd this (by simp)
  · exact h
  · have := pred_true_of_lt_partitionPoint hj h
    rw [hfalse] at this
    exact absurd this (by simp)

theorem partitionPoint_lt_length_of_getLast {α : Type} {p : α → Bool} {l : List α}
    (hne : l ≠ []) (hlast : p (l.getLast hne) = false) :
    partitionPoint p l < l.length := by
  rcases lt_or_eq_of_le (partitionPoint_le_length p l) with h | h
  · exact h
  · exfalso
    have heq : l.takeWhile p = l :=
      (l.takeWhile_prefix p).eq_of_length h
    have := List.takeWhile_eq_self_iff.mp heq (l.getLast hne) (List.getLast_mem hne)
    rw [hlast] at this
    exact absurd this (by simp)

/-!
## Claim theorems: tangent correction and deletion
-/

/-- **C7**: `left_tangent_corrected` returns `(0, left_tangent.y)` whenever
`left_tangent.x ≥ 0`; with a previous knot and `left_tangent.x < min_x =
prev.x − this.x` it rescales to `(min_x, left_tangent.y · (min_x /
left_tangent.x))`; otherwise it returns the raw tangent — and
`right_tangent_corrected` is the mirror image with `right_tangent.x ≤ 0`
degenerate and `max_x = next.x − this.x` as the clamp bound. -/
theorem claim_C7_tangent_corrected (k p : Knot) :
    (0 ≤ k.left_tangent.x → ∀ prev, k.left_tangent_corrected prev = ⟨0, k.left_tangent.y⟩) ∧
    (k.left_tangent.x < 0 → k.left_tangent.x < p.position.x - k.position.x →
      k.left_tangent_corrected (some p) =
        ⟨p.position.x - k.position.x,
         k.left_tangent.y * ((p.position.x - k.position.x) / k.left_tangent.x)⟩) ∧
    (k.left_tangent.x < 0 → ¬(k.left_tangent.x < p.position.x - k.position.x) →
      k.left_tangent_corrected (some p) = k.left_tangent) ∧
    (k.left_tangent.x < 0 → k.left_tangent_corrected none = k.left_tangent) ∧
    (k.right_tangent.x ≤ 0 → ∀ next, k.right_tangent_corrected next = ⟨0, k.right_tangent.y⟩) ∧
    (0 < k.right_tangent.x → p.position.x - k.position.x < k.right_tangent.x →
      k.right_tangent_corrected (some p) =
        ⟨p.position.x - k.position.x,
         k.right_tangent.y * ((p.position.x - k.position.x) / k.right_tangent.x)⟩) ∧
    (0 < k.right_tangent.x → ¬(p.position.x - k.position.x < k.right_tangent.x) →
      k.right_tangent_corrected (some p) = k.right_tangent) ∧
    (0 < k.right_tangent.x → k.right_tangent_corrected none = k.right_tangent) := by
  refine ⟨fun h prev => ?_, fun h1 h2 => ?_, fun h1 h2 => ?_, fun h1 => ?_,
    fun h next => ?_, fun h1 h2 => ?_, fun h1 h2 => ?_, fun h1 => ?_⟩
  · simp [Knot.left_tangent_corrected, ge_iff_le, h]
  · simp [Knot.left_tangent_corrected, ge_iff_le, not_le.mpr h1, h2]
  · simp [Knot.left_tangent_corrected, ge_iff_le, not_le.mpr h1, h2]
  · simp [Knot.left_tangent_corrected, ge_iff_le, not_le.mpr h1]
  · simp [Knot.right_tangent_corrected, h]
  · simp [Knot.right_tangent_corrected, not_le.mpr h1, gt_iff_lt, h2]
  · simp [Knot.right_tangent_corrected, not_le.mpr h1, gt_iff_lt, h2]
  · simp [Knot.right_tangent_corrected, not_le.mpr h1]

/-- Witness for C7 at a concrete knot: the rescaling branch. -/
theorem claim_C7_witness :
    Knot.left_tangent_corrected
      ⟨⟨0, 0⟩, KnotInterpolation.Linear, 0, ⟨-2, 1⟩, ⟨1, 0⟩⟩
      (some ⟨⟨-1, 0⟩, KnotInterpolation.Linear, 1, ⟨-2, 1⟩, ⟨1, 0⟩⟩) =
      ⟨(-1 : ℚ) - 0, 1 * (((-1 : ℚ) - 0) / (-2))⟩ :=
  (claim_C7_tangent_corrected _ _).2.1 (by norm_num) (by norm_num)

/-- **C9**: `delete_knot(i)` at a valid index shrinks the knot list by exactly
one, keeps every knot below `i` at its index, and shifts every later knot down
by one. -/
theorem claim_C9_delete_knot (c : LookupCurve) (i : ℕ) (h : i < c.knots.length) :
    (c.delete_knot i).knots.length = c.knots.length - 1 ∧
    (∀ j, j < i → (c.delete_knot i).knots.getD j default = c.knots.getD j default) ∧
    (∀ j, i ≤ j → j < c.knots.length - 1 →
      (c.delete_knot i).knots.getD j default = c.knots.getD (j + 1) default) := by
  have hlen : (c.delete_knot i).knots.length = c.knots.length - 1 := by
    simp [LookupCurve.delete_knot, List.length_eraseIdx, h]
  refine ⟨hlen, fun j hj => ?_, fun j hij hj => ?_⟩
  · have hj1 : j < (c.delete_knot i).knots.length := by omega
    have hj2 : j < c.knots.length := by omega
    rw [List.getD_eq_getElem _ _ hj1, List.getD_eq_getElem _ _ hj2]
    simp only [LookupCurve.delete_knot] at hj1 ⊢
    rw [List.getElem_eraseIdx _ _ _ hj1]
    rw [dif_pos hj]
  · have hj1 : j < (c.delete_knot i).knots.length := by omega
    have hj2 : j + 1 < c.knots.length := by omega
    rw [List.getD_eq_getElem _ _ hj1, List.getD_eq_getElem _ _ hj2]
    simp only [LookupCurve.delete_knot] at hj1 ⊢
    rw [List.getElem_eraseIdx _ _ _ hj1]
    rw [dif_neg (by omega)]

/-- Witness for C9: deleting index 0 of a two-knot curve. -/
theorem claim_C9_witness :
    ((LookupCurve.mk [default, default]).delete_knot 0).knots.length =
      (LookupCurve.mk [default, default]).knots.length - 1 :=
  (claim_C9_delete_knot (LookupCurve.mk [default, default]) 0 (by decide)).1

/-!
## Claim C8: boundary behaviour of `find_y_given_x`
-/

/-- **C8 (counterexample)**: the claim's last-knot rule "`find_y_given_x`
returns the last knot's y whenever `x ≥` the last knot's x" fails on a curve
whose knots share one x: at `x = 0` both rules apply, the code returns the
first knot's y (1), not the last knot's y (2). -/
theorem claim_C8_counterexample :
    ((LookupCurve.new
        [⟨⟨0, 1⟩, KnotInterpolation.Linear, 0, ⟨-(1/10), 0⟩, ⟨1/10, 0⟩⟩,
         ⟨⟨0, 2⟩, KnotInterpolation.Linear, 1, ⟨-(1/10), 0⟩, ⟨1/10, 0⟩⟩]).knots.getLastD
        default).position.x ≤ (0 : ℚ) ∧
    (LookupCurve.new
        [⟨⟨0, 1⟩, KnotInterpolation.Linear, 0, ⟨-(1/10), 0⟩, ⟨1/10, 0⟩⟩,
         ⟨⟨0, 2⟩, KnotInterpolation.Linear, 1, ⟨-(1/10), 0⟩, ⟨1/10, 0⟩⟩]).find_y_given_x 0 = 1 ∧
    ((LookupCurve.new
        [⟨⟨0, 1⟩, KnotInterpolation.Linear, 0, ⟨-(1/10), 0⟩, ⟨1/10, 0⟩⟩,
         ⟨⟨0, 2⟩, KnotInterpolation.Linear, 1, ⟨-(1/10), 0⟩, ⟨1/10, 0⟩⟩]).knots.getLastD
        default).position.y = 2 ∧
    (1 : ℚ) ≠ 2 := by
  refine ⟨by decide, by decide, by decide, by norm_num⟩

/-- **C8 (amended)**: `find_y_given_x` returns `0` on the empty curve; the
first knot's y when the curve has exactly one knot or `x ≤` the first knot's
x; and the last knot's y when `x ≥` the last knot's x, *provided* `x >` the
first knot's x or the curve has a single knot (when both boundary rules apply,
the first-knot rule wins). -/
theorem claim_C8_find_boundaries (c : LookupCurve) (x : ℚ) :
    (c.knots = [] → c.find_y_given_x x = 0) ∧
    (c.knots ≠ [] → (c.knots.length = 1 ∨ x ≤ (c.knots.headD default).position.x) →
      c.find_y_given_x x = (c.knots.headD default).position.y) ∧
    (c.knots ≠ [] → (c.knots.getLastD default).position.x ≤ x →
      ((c.knots.headD default).position.x < x ∨ c.knots.length = 1) →
      c.find_y_given_x x = (c.knots.getLastD default).position.y) := by
  obtain ⟨ks⟩ := c
  cases ks with
  | nil => exact ⟨fun _ => rfl, fun h _ => absurd rfl h, fun h _ _ => absurd rfl h⟩
  | cons k0 rest =>
    refine ⟨fun h => by simp at h, fun _ hcond => ?_, fun _ hlast hfirst => ?_⟩
    · have hc : rest.length = 0 ∨ x ≤ k0.position.x := by
        rcases hcond with h1 | h1
        · exact Or.inl (by simpa using h1)
        · exact Or.inr (by simpa using h1)
      simp only [LookupCurve.find_y_given_x, if_pos hc]
      simp
    · by_cases hc : rest.length = 0 ∨ x ≤ k0.position.x
      · -- the first guard fires; show first knot = last knot here
        rcases hc with h1 | h1
        · have hrest : rest = [] := List.length_eq_zero.mp h1
          subst hrest
          simp only [LookupCurve.find_y_given_x]
          simp
        · -- x ≤ first.x together with the amendment hypotheses forces len = 1
          rcases hfirst with h2 | h2
          · exact absurd h1 (not_le.mpr (by simpa using h2))
          · have hrest : rest = [] := by
              simp only [List.length_cons] at h2
              exact List.length_eq_zero.mp (by omega)
            subst hrest
            simp only [LookupCurve.find_y_given_x]
            simp [h1]
      · simp only [List.getLastD_eq_getLast?,
          List.getLast?_eq_getLast _ (List.cons_ne_nil k0 rest), Option.getD_some] at hlast ⊢
        simp only [LookupCurve.find_y_given_x, if_neg hc]
        rw [if_pos hlast]

/-- Witness for C8 on a two-knot curve with `x` above the last knot. -/
theorem claim_C8_witness :
    (LookupCurve.new
        [⟨⟨0, 1⟩, KnotInterpolation.Linear, 0, ⟨-(1/10), 0⟩, ⟨1/10, 0⟩⟩,
         ⟨⟨1, 2⟩, KnotInterpolation.Linear, 1, ⟨-(1/10), 0⟩, ⟨1/10, 0⟩⟩]).find_y_given_x 5 =
      ((LookupCurve.new
        [⟨⟨0, 1⟩, KnotInterpolation.Linear, 0, ⟨-(1/10), 0⟩, ⟨1/10, 0⟩⟩,
         ⟨⟨1, 2⟩, KnotInterpolation.Linear, 1, ⟨-(1/10), 0⟩, ⟨1/10, 0⟩⟩]).knots.getLastD
        default).position.y :=
  (claim_C8_find_boundaries _ 5).2.2 (by decide) (by decide) (Or.inl (by decide))

/-!
## Claim C5: the Newton inversion loop
-/

/-- The raw Newton iteration for inverting `position(·).x = x`, with no
stopping rule, as the spec describes it: `t₀ = x`,
`tₙ₊₁ = tₙ − (position(tₙ).x − x) / velocity(tₙ).x`.  Used to characterise
`CubicSegment.find_y_given_x`. -/
def newtonT (s : CubicSegment) (x : ℚ) : ℕ → ℚ
  | 0 => x
  | n + 1 =>
    let t := newtonT s x n
    t - ((s.position t).x - x) / (s.velocity t).x

theorem CubicSegment.newtonLoop_one (s : CubicSegment) (x : ℚ) (t : ℚ) :
    CubicSegment.newtonLoop s x 1 t = s.position t := by
  show (if |(s.position t).x - x| ≤ CubicSegment.maxError then s.position t
    else s.position t) = s.position t
  exact ite_self _

theorem CubicSegment.newtonLoop_succ_succ (s : CubicSegment) (x : ℚ) (m : ℕ) (t : ℚ) :
    CubicSegment.newtonLoop s x (m + 1 + 1) t =
      if |(s.position t).x - x| ≤ CubicSegment.maxError then s.position t
      else CubicSegment.newtonLoop s x (m + 1) (t - ((s.position t).x - x) / (s.velocity t).x) := rfl

theorem CubicSegment.newtonLoop_spec (s : CubicSegment) (x : ℚ) :
    ∀ (n j : ℕ),
      ∃ k, k < n + 1 ∧
        CubicSegment.newtonLoop s x (n + 1) (newtonT s x j) = s.position (newtonT s x (j + k)) ∧
        (∀ i, i < k →
          ¬(|(s.position (newtonT s x (j + i))).x - x| ≤ CubicSegment.maxError)) ∧
        (|(s.position (newtonT s x (j + k))).x - x| ≤ CubicSegment.maxError ∨ k = n) := by
  intro n
  induction n with
  | zero =>
    intro j
    refine ⟨0, by omega, ?_, fun i hi => (Nat.not_lt_zero i hi).elim, Or.inr rfl⟩
    rw [CubicSegment.newtonLoop_one, Nat.add_zero]
  | succ n ih =>
    intro j
    by_cases hconv : |(s.position (newtonT s x j)).x - x| ≤ CubicSegment.maxError
    · refine ⟨0, by omega, ?_, fun i hi => (Nat.not_lt_zero i hi).elim,
        Or.inl (by simpa using hconv)⟩
      rw [CubicSegment.newtonLoop_succ_succ, if_pos hconv, Nat.add_zero]
    · obtain ⟨k, hk, heq, hpre, hstop⟩ := ih (j + 1)
      refine ⟨k + 1, by omega, ?_, ?_, ?_⟩
      · rw [CubicSegment.newtonLoop_succ_succ, if_neg hconv]
        have hstep : newtonT s x j -
            ((s.position (newtonT s x j)).x - x) / (s.velocity (newtonT s x j)).x =
            newtonT s x (j + 1) := rfl
        rw [hstep, show j + (k + 1) = j + 1 + k by omega]
        exact heq
      · intro i hi
        cases i with
        | zero => simpa using hconv
        | succ i =>
          rw [show j + (i + 1) = j + 1 + i by omega]
          exact hpre i (by omega)
      · rcases hstop with h | h
        · exact Or.inl (by rw [show j + (k + 1) = j + 1 + k by omega]; exact h)
        · exact Or.inr (by omega)

/-- **C5**: `CubicSegment::find_y_given_x` is Newton iteration with initial
guess `t₀ = x` and update `t −= (position(t).x − x) / velocity(t).x`: it stops
at the first iterate (among the at most 8) whose x-error is within
`MAX_ERROR = 1e-5`, otherwise runs exactly 8 iterations, and in either case
terminates, returning the y of the last computed position — no convergence
failure is raised. -/
theorem claim_C5_newton_inversion (s : CubicSegment) (x : ℚ) :
    ∃ k, k < 8 ∧
      s.find_y_given_x x = (s.position (newtonT s x k)).y ∧
      (∀ i, i < k →
        ¬(|(s.position (newtonT s x i)).x - x| ≤ CubicSegment.maxError)) ∧
      (|(s.position (newtonT s x k)).x - x| ≤ CubicSegment.maxError ∨ k = 7) := by
  obtain ⟨k, hk, heq, hpre, hstop⟩ := CubicSegment.newtonLoop_spec s x 7 0
  rw [Nat.zero_add] at heq
  refine ⟨k, hk, ?_, fun i hi => by simpa using hpre i hi, by simpa using hstop⟩
  show (CubicSegment.newtonLoop s x 8 x).y = _
  have hmain : CubicSegment.newtonLoop s x 8 x = s.position (newtonT s x k) := heq
  rw [hmain]

/-!
## Claim C6: NaN knots at construction time
-/

theorem F.val_of_not_nan {f : F} (h : f.isNaN = false) : ∃ q, f = F.val q := by
  cases f with
  | nan => simp [F.isNaN] at h
  | val q => exact ⟨q, rfl⟩

theorem KnotF.cmpX_none_left {a b : KnotF} (h : a.position.1.isNaN = true) :
    a.cmpX b = none := by
  cases ha : a.position.1 with
  | nan => cases b.position.1 <;> simp [KnotF.cmpX, ha]
  | val q => rw [ha] at h; simp [F.isNaN] at h

theorem KnotF.cmpX_none_right {a b : KnotF} (h : b.position.1.isNaN = true) :
    a.cmpX b = none := by
  cases hb : b.position.1 with
  | nan => cases a.position.1 <;> simp [KnotF.cmpX, hb]
  | val q => rw [hb] at h; simp [F.isNaN] at h

theorem orderedInsertF_some (a : KnotF) (ha : a.position.1.isNaN = false)
    (m : List KnotF) (hm : ∀ k ∈ m, k.position.1.isNaN = false) :
    ∃ m2, orderedInsertF a m = some m2 ∧ m2.length = m.length + 1 ∧
      ∀ k ∈ m2, k = a ∨ k ∈ m := by
  induction m with
  | nil => exact ⟨[a], rfl, rfl, by simp⟩
  | cons b t ih =>
    obtain ⟨p, hp⟩ := F.val_of_not_nan ha
    obtain ⟨q, hq⟩ := F.val_of_not_nan (hm b (by simp))
    have hcmp : a.cmpX b = some (decide (p ≤ q)) := by
      simp [KnotF.cmpX, hp, hq]
    by_cases hle : p ≤ q
    · have hcmp2 : a.cmpX b = some true := by rw [hcmp]; simp [hle]
      refine ⟨a :: b :: t, ?_, by simp, by simp⟩
      simp only [orderedInsertF, hcmp2]
    · have hcmp2 : a.cmpX b = some false := by rw [hcmp]; simp [hle]
      obtain ⟨m2, hm2, hlen2, hmem2⟩ := ih (fun k hk => hm k (by simp [hk]))
      refine ⟨b :: m2, ?_, by simp [hlen2], ?_⟩
      · simp only [orderedInsertF, hcmp2]
        rw [hm2]
        rfl
      · intro k hk
        rcases List.mem_cons.mp hk with h | h
        · subst h; exact Or.inr (by simp)
        · rcases hmem2 k h with h2 | h2
          · exact Or.inl h2
          · exact Or.inr (by simp [h2])

theorem insertionSortF_some (l : List KnotF)
    (h : ∀ k ∈ l, k.position.1.isNaN = false) :
    ∃ m, insertionSortF l = some m ∧ m.length = l.length ∧ ∀ k ∈ m, k ∈ l := by
  induction l with
  | nil => exact ⟨[], rfl, rfl, by simp⟩
  | cons a t ih =>
    obtain ⟨m, hm, hlen, hmem⟩ := ih (fun k hk => h k (by simp [hk]))
    have hmnan : ∀ k ∈ m, k.position.1.isNaN = false := fun k hk =>
      h k (by simp [hmem k hk])
    obtain ⟨m2, hm2, hlen2, hmem2⟩ :=
      orderedInsertF_some a (h a (by simp)) m hmnan
    refine ⟨m2, ?_, by simp [hlen2, hlen], ?_⟩
    · rw [insertionSortF, hm]
      exact hm2
    · intro k hk
      rcases hmem2 k hk with h2 | h2
      · simp [h2]
      · simp [hmem k h2]

theorem insertionSortF_none (l : List KnotF) (hlen : 2 ≤ l.length)
    (hnan : ∃ b ∈ l, b.position.1.isNaN = true) :
    insertionSortF l = none := by
  induction l with
  | nil => simp at hlen
  | cons a t ih =>
    by_cases hnant : ∃ b ∈ t, b.position.1.isNaN = true
    · by_cases hlent : 2 ≤ t.length
      · rw [insertionSortF, ih hlent hnant]
        rfl
      · obtain ⟨b, hbmem, hbnan⟩ := hnant
        cases t with
        | nil => simp at hbmem
        | cons c t2 =>
          have ht2 : t2 = [] := by
            simp only [List.length_cons] at hlent
            exact List.length_eq_zero.mp (by omega)
          subst ht2
          have hbc : b = c := by simpa using hbmem
          subst hbc
          show (insertionSortF [b]).bind (orderedInsertF a) = none
          have h1 : insertionSortF [b] = some [b] := rfl
          rw [h1]
          show orderedInsertF a [b] = none
          simp [orderedInsertF, KnotF.cmpX_none_right hbnan]
    · have hanan : a.position.1.isNaN = true := by
        obtain ⟨b, hb, hbn⟩ := hnan
        rcases List.mem_cons.mp hb with h | h
        · subst h; exact hbn
        · exact absurd ⟨b, h, hbn⟩ hnant
      have hnanfree : ∀ k ∈ t, k.position.1.isNaN = false := by
        intro k hk
        by_contra hcon
        exact hnant ⟨k, hk, by simpa using hcon⟩
      obtain ⟨m, hm, hmlen, _⟩ := insertionSortF_some t hnanfree
      have hmne : m ≠ [] := by
        intro hnil
        rw [hnil] at hmlen
        simp only [List.length_cons] at hlen
        simp at hmlen
        omega
      cases m with
      | nil => exact absurd rfl hmne
      | cons c m2 =>
        rw [insertionSortF, hm]
        show orderedInsertF a (c :: m2) = none
        simp [orderedInsertF, KnotF.cmpX_none_left hanan]

/-- **C6 (counterexample)**: a single-element knot list whose only knot has a
NaN x is accepted by `LookupCurve::new` — a one-element slice is sorted
without invoking the comparator, so the `expect("NaN is not allowed")` never
runs and construction does *not* fail for every NaN-containing input. -/
theorem claim_C6_counterexample :
    LookupCurve.newF [⟨(F.nan, 0)⟩] = some [⟨(F.nan, 0)⟩] ∧
    (⟨(F.nan, 0)⟩ : KnotF).position.1.isNaN = true := ⟨rfl, rfl⟩

/-- **C6 (amended)**: for every input list of **at least two** knots, one of
which has a NaN x-position, `LookupCurve::new` fails fatally (the sort must
compare the NaN element at least once, and that comparison panics); a
singleton list is accepted unexamined. -/
theorem claim_C6_new_nan_fatal (l : List KnotF) (hlen : 2 ≤ l.length)
    (hnan : ∃ b ∈ l, b.position.1.isNaN = true) :
    LookupCurve.newF l = none :=
  insertionSortF_none l hlen hnan

/-- Witness for C6 at a concrete two-knot list. -/
theorem claim_C6_witness :
    LookupCurve.newF [⟨(F.nan, 0)⟩, ⟨(F.val 1, 0)⟩] = none :=
  claim_C6_new_nan_fatal _ (by decide) ⟨⟨(F.nan, 0)⟩, by decide⟩

/-!
## Claim C10: bounds of the interior left-knot index
-/

/-- **C10**: whenever the query `x` is an actual (non-NaN) number and the
interior branch of `find_y_given_x` is reached, the partition point lies
between 1 and `len − 1` inclusive, so the left-knot index `i = partition − 1`
does not underflow and both accesses `knots[i]`, `knots[i+1]` are in bounds;
whereas a NaN query makes every comparison false, so whenever the curve has at
least two knots the guards fall through, the partition point is 0, and the
decrement underflows (`i = −1`). -/
theorem claim_C10_interior_index (c : LookupCurve) :
    (∀ (q : ℚ) (z : ℤ), c.find_left_index (F.val q) = some z →
      0 ≤ z ∧ z + 1 < (c.knots.length : ℤ)) ∧
    (2 ≤ c.knots.length → c.find_left_index F.nan = some (-1)) := by
  obtain ⟨ks⟩ := c
  constructor
  · intro q z hz
    cases ks with
    | nil => exact absurd hz (by simp [LookupCurve.find_left_index])
    | cons k0 rest =>
      simp only [LookupCurve.find_left_index] at hz
      by_cases h1 : rest.length = 0 ∨ (F.val q).fle (F.val k0.position.x) = true
      · rw [if_pos (by simpa using h1)] at hz
        exact absurd hz (by simp)
      · rw [if_neg (by simpa using h1)] at hz
        push_neg at h1
        obtain ⟨hrest, hle⟩ := h1
        have hk0 : k0.position.x < q := by
          have : ¬(q ≤ k0.position.x) := by
            simpa [F.fle] using hle
          exact lt_of_not_le this
        by_cases h2 : (F.val ((k0 :: rest).getLast
            (List.cons_ne_nil k0 rest)).position.x).fle (F.val q) = true
        · rw [if_pos h2] at hz
          exact absurd hz (by simp)
        · rw [if_neg h2] at hz
          have hlast : q < ((k0 :: rest).getLast (List.cons_ne_nil k0 rest)).position.x := by
            have : ¬(((k0 :: rest).getLast (List.cons_ne_nil k0 rest)).position.x ≤ q) := by
              simpa [F.fle] using h2
            exact lt_of_not_le this
          have hz2 : z = (partitionPoint
              (fun knot => (F.val knot.position.x).flt (F.val q)) (k0 :: rest) : ℤ) - 1 := by
            exact (Option.some_injective _ hz.symm : _)
          have hppge : 1 ≤ partitionPoint
              (fun knot => (F.val knot.position.x).flt (F.val q)) (k0 :: rest) := by
            have hpred : (F.val k0.position.x).flt (F.val q) = true := by
              simp [F.flt, hk0]
            simp [partitionPoint, List.takeWhile_cons, hpred]
          have hpplt : partitionPoint
              (fun knot => (F.val knot.position.x).flt (F.val q)) (k0 :: rest) <
              (k0 :: rest).length := by
            refine partitionPoint_lt_length_of_getLast (List.cons_ne_nil k0 rest) ?_
            simp [F.flt, not_lt.mpr (le_of_lt hlast)]
          constructor
          · rw [hz2]
            have : (1 : ℤ) ≤ (partitionPoint
                (fun knot => (F.val knot.position.x).flt (F.val q)) (k0 :: rest) : ℤ) := by
              exact_mod_cast hppge
            omega
          · rw [hz2]
            show _ < ((k0 :: rest).length : ℤ)
            have : (partitionPoint
                (fun knot => (F.val knot.position.x).flt (F.val q)) (k0 :: rest) : ℤ) <
                ((k0 :: rest).length : ℤ) := by
              exact_mod_cast hpplt
            omega
  · intro hlen
    cases ks with
    | nil => simp at hlen
    | cons k0 rest =>
      have hrest : rest.length ≠ 0 := by
        simp only [List.length_cons] at hlen
        omega
      simp only [LookupCurve.find_left_index]
      rw [if_neg (by simp [hrest, F.fle])]
      rw [if_neg (by simp [F.fle])]
      have hpp : partitionPoint
          (fun knot => (F.val knot.position.x).flt F.nan) (k0 :: rest) = 0 := by
        simp [partitionPoint, List.takeWhile_cons, F.flt]
      rw [hpp]
      rfl

/-- Witness for C10 on a concrete two-knot curve and interior query. -/
theorem claim_C10_witness :
    (0 : ℤ) ≤ 0 ∧ (0 : ℤ) + 1 <
      ((LookupCurve.mk
        [⟨⟨0, 0⟩, KnotInterpolation.Linear, 0, ⟨-(1/10), 0⟩, ⟨1/10, 0⟩⟩,
         ⟨⟨1, 1⟩, KnotInterpolation.Linear, 1, ⟨-(1/10), 0⟩, ⟨1/10, 0⟩⟩]).knots.length : ℤ) :=
  (claim_C10_interior_index _).1 (1/2) 0 (by
    simp [LookupCurve.find_left_index, partitionPoint, F.fle, F.flt, List.takeWhile_cons]
    norm_num)

/-!
## The sort invariant
-/

/-- The invariant: knots sorted non-decreasing by `position.x`. -/
def SortedX (l : List Knot) : Prop := List.Sorted LookupCurve.byX l

instance : IsTotal Knot LookupCurve.byX :=
  ⟨fun a b => le_total a.position.x b.position.x⟩

instance : IsTrans Knot LookupCurve.byX :=
  ⟨fun _ _ _ h1 h2 => le_trans h1 h2⟩

instance : DecidablePred SortedX := fun l =>
  inferInstanceAs (Decidable (List.Pairwise LookupCurve.byX l))

theorem insertIdx_eq_take_cons_drop {α : Type} (j : ℕ) (v : α) (m : List α)
    (hj : j ≤ m.length) :
    m.insertIdx j v = m.take j ++ v :: m.drop j := by
  induction m generalizing j with
  | nil =>
    have : j = 0 := by simpa using hj
    subst this
    rfl
  | cons b t ih =>
    cases j with
    | zero => rfl
    | succ j =>
      simp only [List.insertIdx_succ_cons, List.take_succ_cons, List.drop_succ_cons,
        List.cons_append]
      rw [ih j (by simpa using hj)]

theorem sortedX_set {l : List Knot} {i : ℕ} {v : Knot} (hs : SortedX l)
    (hlow : ∀ k (hk : k < l.length), k < i → l[k].position.x ≤ v.position.x)
    (hhigh : ∀ k (hk : k < l.length), i < k → v.position.x ≤ l[k].position.x) :
    SortedX (l.set i v) := by
  rw [SortedX, List.Sorted, List.pairwise_iff_getElem]
  intro a b ha hb hab
  have ha2 : a < l.length := by simpa using ha
  have hb2 : b < l.length := by simpa using hb
  rw [List.getElem_set, List.getElem_set]
  by_cases hia : i = a
  · rw [if_pos hia, if_neg (by omega)]
    show v.position.x ≤ _
    exact hhigh b hb2 (by omega)
  · rw [if_neg hia]
    by_cases hib : i = b
    · rw [if_pos hib]
      show _ ≤ v.position.x
      exact hlow a ha2 (by omega)
    · rw [if_neg hib]
      exact List.pairwise_iff_getElem.mp hs a b ha2 hb2 hab

theorem sortedX_insertIdx {m : List Knot} {j : ℕ} {v : Knot} (hs : SortedX m)
    (hj : j ≤ m.length)
    (hlow : ∀ k (hk : k < m.length), k < j → m[k].position.x ≤ v.position.x)
    (hhigh : ∀ k (hk : k < m.length), j ≤ k → v.position.x ≤ m[k].position.x) :
    SortedX (m.insertIdx j v) := by
  rw [SortedX, insertIdx_eq_take_cons_drop j v m hj, List.Sorted, List.pairwise_append]
  have hmem_take : ∀ b ∈ m.take j, ∃ k, ∃ (hk : k < m.length), k < j ∧ m[k] = b := by
    intro b hb
    obtain ⟨k, hk, hbk⟩ := List.mem_iff_getElem.mp hb
    have hk2 : k < j := by
      have := hk
      rw [List.length_take] at this
      omega
    have hk3 : k < m.length := by
      have := hk
      rw [List.length_take] at this
      omega
    refine ⟨k, hk3, hk2, ?_⟩
    rw [← hbk, List.getElem_take]
  have hmem_drop : ∀ b ∈ m.drop j, ∃ k, ∃ (hk : k < m.length), j ≤ k ∧ m[k] = b := by
    intro b hb
    obtain ⟨k, hk, hbk⟩ := List.mem_iff_getElem.mp hb
    have hk2 : j + k < m.length := by
      have := hk
      rw [List.length_drop] at this
      omega
    refine ⟨j + k, hk2, by omega, ?_⟩
    rw [← hbk, List.getElem_drop]
  refine ⟨List.Pairwise.sublist (List.take_sublist j m) hs, ?_, ?_⟩
  · rw [List.pairwise_cons]
    constructor
    · intro b hb
      obtain ⟨k, hk, hjk, hbk⟩ := hmem_drop b hb
      show v.position.x ≤ _
      rw [← hbk]
      exact hhigh k hk hjk
    · exact List.Pairwise.sublist (List.drop_sublist j m) hs
  · intro a ha b hb
    obtain ⟨ka, hka, hkaj, hak⟩ := hmem_take a ha
    rcases List.mem_cons.mp hb with rfl | hb2
    · show a.position.x ≤ b.position.x
      rw [← hak]
      exact hlow ka hka hkaj
    · obtain ⟨kb, hkb, hjkb, hbk⟩ := hmem_drop b hb2
      rw [← hak, ← hbk]
      exact List.pairwise_iff_getElem.mp hs ka kb hka hkb (by omega)

theorem filter_orderedInsert_of_eq (q : ℚ) (a : Knot) (l : List Knot)
    (ha : a.position.x = q) :
    (List.orderedInsert LookupCurve.byX a l).filter (fun k => decide (k.position.x = q)) =
      a :: l.filter (fun k => decide (k.position.x = q)) := by
  induction l with
  | nil => simp [List.orderedInsert, ha]
  | cons b t ih =>
    by_cases hr : LookupCurve.byX a b
    · rw [List.orderedInsert, if_pos hr, List.filter_cons, if_pos (by simp [ha])]
    · have hbx : b.position.x < a.position.x := lt_of_not_le hr
      have hbq : ¬(b.position.x = q) := by rw [← ha]; exact ne_of_lt hbx
      rw [List.orderedInsert, if_neg hr, List.filter_cons, if_neg (by simp [hbq]), ih,
        List.filter_cons, if_neg (by simp [hbq])]

theorem filter_orderedInsert_of_ne (q : ℚ) (a : Knot) (l : List Knot)
    (ha : ¬(a.position.x = q)) :
    (List.orderedInsert LookupCurve.byX a l).filter (fun k => decide (k.position.x = q)) =
      l.filter (fun k => decide (k.position.x = q)) := by
  induction l with
  | nil => simp [List.orderedInsert, ha]
  | cons b t ih =>
    by_cases hr : LookupCurve.byX a b
    · rw [List.orderedInsert, if_pos hr, List.filter_cons, if_neg (by simp [ha])]
    · rw [List.orderedInsert, if_neg hr, List.filter_cons, ih, List.filter_cons]

theorem filter_insertionSort_x (q : ℚ) (l : List Knot) :
    (List.insertionSort LookupCurve.byX l).filter (fun k => decide (k.position.x = q)) =
      l.filter (fun k => decide (k.position.x = q)) := by
  induction l with
  | nil => rfl
  | cons a t ih =>
    rw [List.insertionSort]
    by_cases ha : a.position.x = q
    · rw [filter_orderedInsert_of_eq q a _ ha, ih, List.filter_cons, if_pos (by simp [ha])]
    · rw [filter_orderedInsert_of_ne q a _ ha, ih, List.filter_cons, if_neg (by simp [ha])]

/-!
## `modify_knot`: branch equations and the sort invariant
-/

theorem pp_lt_of_lt {l : List Knot} {xq : ℚ} {idx : ℕ} (hk : idx < l.length)
    (h : idx < partitionPoint (fun k => decide (k.position.x < xq)) l) :
    l[idx].position.x < xq := by
  have := pred_true_of_lt_partitionPoint hk h
  simpa using this

theorem pp_ge_of_ge {l : List Knot} {xq : ℚ} (hs : SortedX l) {idx : ℕ}
    (hk : idx < l.length)
    (h : partitionPoint (fun k => decide (k.position.x < xq)) l ≤ idx) :
    xq ≤ l[idx].position.x := by
  have hpplt : partitionPoint (fun k => decide (k.position.x < xq)) l < l.length :=
    lt_of_le_of_lt h hk
  have hfalse := pred_false_at_partitionPoint hpplt
  have h1 : xq ≤ (l[partitionPoint (fun k => decide (k.position.x < xq)) l]).position.x := by
    have : ¬((l[partitionPoint (fun k => decide (k.position.x < xq)) l]).position.x < xq) := by
      simpa using hfalse
    exact le_of_not_lt this
  rcases eq_or_lt_of_le h with heq | hlt
  · simp only [heq] at h1
    exact h1
  · exact le_trans h1 (List.pairwise_iff_getElem.mp hs _ _ hpplt hk hlt)

theorem modify_knot_eq_pos (l : List Knot) (i : ℕ) (v : Knot)
    (hpos : (l.getD i default).position = v.position) :
    (LookupCurve.mk l).modify_knot i v = (⟨l.set i v⟩, i) := by
  have hpos2 : (l[i]?.getD default).position = v.position := by
    simpa [List.getD] using hpos
  simp [LookupCurve.modify_knot, hpos2]

theorem modify_knot_eq_stay (l : List Knot) (i : ℕ) (v : Knot)
    (hpos : ¬((l.getD i default).position = v.position))
    (hppi : partitionPoint (fun k => decide (k.position.x < v.position.x)) l = i) :
    (LookupCurve.mk l).modify_knot i v = (⟨l.set i v⟩, i) := by
  have hpos2 : ¬(l[i]?.getD default).position = v.position := by
    simpa [List.getD] using hpos
  simp [LookupCurve.modify_knot, hpos2, hppi]

theorem modify_knot_eq_move (l : List Knot) (i : ℕ) (v : Knot)
    (hpos : ¬((l.getD i default).position = v.position))
    (hppi : ¬(partitionPoint (fun k => decide (k.position.x < v.position.x)) l = i)) :
    (LookupCurve.mk l).modify_knot i v =
      (⟨(l.eraseIdx i).insertIdx
          (if i < partitionPoint (fun k => decide (k.position.x < v.position.x)) l then
            partitionPoint (fun k => decide (k.position.x < v.position.x)) l - 1
          else partitionPoint (fun k => decide (k.position.x < v.position.x)) l) v⟩,
        if i < partitionPoint (fun k => decide (k.position.x < v.position.x)) l then
          partitionPoint (fun k => decide (k.position.x < v.position.x)) l - 1
        else partitionPoint (fun k => decide (k.position.x < v.position.x)) l) := by
  have hpos2 : ¬(l[i]?.getD default).position = v.position := by
    simpa [List.getD] using hpos
  simp [LookupCurve.modify_knot, hpos2, hppi]

theorem modify_knot_core (l : List Knot) (i : ℕ) (v : Knot)
    (hs : SortedX l) (hi : i < l.length) :
    SortedX ((LookupCurve.mk l).modify_knot i v).1.knots ∧
    ((LookupCurve.mk l).modify_knot i v).1.knots.length = l.length ∧
    ((LookupCurve.mk l).modify_knot i v).2 < l.length ∧
    ((LookupCurve.mk l).modify_knot i v).1.knots.getD
      ((LookupCurve.mk l).modify_knot i v).2 default = v := by
  by_cases hpos : (l.getD i default).position = v.position
  · rw [modify_knot_eq_pos l i v hpos]
    have hxi : l[i].position = v.position := by
      rw [← List.getD_eq_getElem l default hi]
      exact hpos
    refine ⟨?_, by simp, by simpa using hi, ?_⟩
    · refine sortedX_set hs (fun k hk hki => ?_) (fun k hk hik => ?_)
      · have := List.pairwise_iff_getElem.mp hs k i hk hi hki
        show l[k].position.x ≤ _
        calc l[k].position.x ≤ l[i].position.x := this
          _ = v.position.x := by rw [hxi]
      · have := List.pairwise_iff_getElem.mp hs i k hi hk hik
        calc v.position.x = l[i].position.x := by rw [hxi]
          _ ≤ l[k].position.x := this
    · have hset : i < (l.set i v).length := by simpa using hi
      rw [List.getD_eq_getElem _ default hset, List.getElem_set, if_pos rfl]
  · by_cases hppi : partitionPoint (fun k => decide (k.position.x < v.position.x)) l = i
    · rw [modify_knot_eq_stay l i v hpos hppi]
      refine ⟨?_, by simp, by simpa using hi, ?_⟩
      · refine sortedX_set hs (fun k hk hki => ?_) (fun k hk hik => ?_)
        · exact le_of_lt (pp_lt_of_lt hk (by omega))
        · exact pp_ge_of_ge hs hk (by omega)
      · have hset : i < (l.set i v).length := by simpa using hi
        rw [List.getD_eq_getElem _ default hset, List.getElem_set, if_pos rfl]
    · rw [modify_knot_eq_move l i v hpos hppi]
      have hppl : partitionPoint (fun k => decide (k.position.x < v.position.x)) l ≤
          l.length := partitionPoint_le_length _ _
      have hml : (l.eraseIdx i).length = l.length - 1 := by
        rw [List.length_eraseIdx, if_pos hi]
      have hj : (if i < partitionPoint (fun k => decide (k.position.x < v.position.x)) l then
          partitionPoint (fun k => decide (k.position.x < v.position.x)) l - 1
          else partitionPoint (fun k => decide (k.position.x < v.position.x)) l) ≤
          (l.eraseIdx i).length := by
        split <;> omega
      have hsm : SortedX (l.eraseIdx i) :=
        List.Pairwise.sublist (List.eraseIdx_sublist l i) hs
      have hlow : ∀ k (hk : k < (l.eraseIdx i).length),
          k < (if i < partitionPoint (fun kn => decide (kn.position.x < v.position.x)) l then
            partitionPoint (fun kn => decide (kn.position.x < v.position.x)) l - 1
          else partitionPoint (fun kn => decide (kn.position.x < v.position.x)) l) →
          (l.eraseIdx i)[k].position.x ≤ v.position.x := by
        intro k hk hkj
        rw [List.getElem_eraseIdx]
        by_cases hki : k < i
        · rw [dif_pos hki]
          refine le_of_lt (pp_lt_of_lt (by omega) ?_)
          by_cases hcase : i < partitionPoint (fun kn => decide (kn.position.x < v.position.x)) l
          · rw [if_pos hcase] at hkj
            omega
          · rw [if_neg hcase] at hkj
            omega
        · rw [dif_neg hki]
          refine le_of_lt (pp_lt_of_lt (by omega) ?_)
          by_cases hcase : i < partitionPoint (fun kn => decide (kn.position.x < v.position.x)) l
          · rw [if_pos hcase] at hkj
            omega
          · rw [if_neg hcase] at hkj
            omega
      have hhigh : ∀ k (hk : k < (l.eraseIdx i).length),
          (if i < partitionPoint (fun kn => decide (kn.position.x < v.position.x)) l then
            partitionPoint (fun kn => decide (kn.position.x < v.position.x)) l - 1
          else partitionPoint (fun kn => decide (kn.position.x < v.position.x)) l) ≤ k →
          v.position.x ≤ (l.eraseIdx i)[k].position.x := by
        intro k hk hkj
        rw [List.getElem_eraseIdx]
        by_cases hki : k < i
        · rw [dif_pos hki]
          refine pp_ge_of_ge hs (by omega) ?_
          by_cases hcase : i < partitionPoint (fun kn => decide (kn.position.x < v.position.x)) l
          · rw [if_pos hcase] at hkj
            omega
          · rw [if_neg hcase] at hkj
            omega
        · rw [dif_neg hki]
          refine pp_ge_of_ge hs (by omega) ?_
          by_cases hcase : i < partitionPoint (fun kn => decide (kn.position.x < v.position.x)) l
          · rw [if_pos hcase] at hkj
            omega
          · rw [if_neg hcase] at hkj
            omega
      refine ⟨sortedX_insertIdx hsm hj hlow hhigh, ?_, ?_, ?_⟩
      · rw [List.length_insertIdx _ _ hj]
        omega
      · split <;> omega
      · have hres : (if i < partitionPoint
            (fun kn => decide (kn.position.x < v.position.x)) l then
            partitionPoint (fun kn => decide (kn.position.x < v.position.x)) l - 1
          else partitionPoint (fun kn => decide (kn.position.x < v.position.x)) l) <
            (List.insertIdx (if i < partitionPoint
              (fun kn => decide (kn.position.x < v.position.x)) l then
              partitionPoint (fun kn => decide (kn.position.x < v.position.x)) l - 1
            else partitionPoint (fun kn => decide (kn.position.x < v.position.x)) l) v
              (l.eraseIdx i)).length := by
          rw [List.length_insertIdx _ _ hj]
          omega
        rw [List.getD_eq_getElem _ default hres, List.getElem_insertIdx_self _ _ _ hj]

/-- **C1**: after every public operation — `new`, `modify_knot` (valid index),
`delete_knot` — the owned knot sequence is sorted non-decreasing by
`position.x` (the rational model is the world where no knot x is NaN), and
equal-x knots retain their stable relative order: `new` preserves the input
order of the knots having any given x, and the mutating operations keep every
knot other than the modified one in its previous relative order. -/
theorem claim_C1_sort_invariant :
    (∀ ks : List Knot, SortedX (LookupCurve.new ks).knots ∧
      ∀ q : ℚ, (LookupCurve.new ks).knots.filter (fun k => decide (k.position.x = q)) =
        ks.filter (fun k => decide (k.position.x = q))) ∧
    (∀ (c : LookupCurve) (i : ℕ) (v : Knot), SortedX c.knots → i < c.knots.length →
      SortedX (c.modify_knot i v).1.knots ∧
      ((c.modify_knot i v).1.knots = c.knots.set i v ∨
        ∃ j, (c.modify_knot i v).1.knots = (c.knots.eraseIdx i).insertIdx j v)) ∧
    (∀ (c : LookupCurve) (i : ℕ), SortedX c.knots → SortedX (c.delete_knot i).knots) := by
  refine ⟨fun ks => ⟨List.sorted_insertionSort _ ks, fun q => filter_insertionSort_x q ks⟩,
    fun c i v hs hi => ?_,
    fun c i hs => List.Pairwise.sublist (List.eraseIdx_sublist _ i) hs⟩
  obtain ⟨l⟩ := c
  refine ⟨(modify_knot_core l i v hs hi).1, ?_⟩
  by_cases hpos : (l.getD i default).position = v.position
  · rw [modify_knot_eq_pos l i v hpos]
    exact Or.inl rfl
  · by_cases hppi : partitionPoint (fun k => decide (k.position.x < v.position.x)) l = i
    · rw [modify_knot_eq_stay l i v hpos hppi]
      exact Or.inl rfl
    · rw [modify_knot_eq_move l i v hpos hppi]
      exact Or.inr ⟨_, rfl⟩

/-- Witness for C1: modifying the only knot of a singleton curve. -/
theorem claim_C1_witness :
    SortedX ((LookupCurve.mk [default]).modify_knot 0 default).1.knots ∧
    (((LookupCurve.mk [default]).modify_knot 0 default).1.knots =
        (LookupCurve.mk [default]).knots.set 0 default ∨
      ∃ j, ((LookupCurve.mk [default]).modify_knot 0 default).1.knots =
        ((LookupCurve.mk [default]).knots.eraseIdx 0).insertIdx j default) :=
  claim_C1_sort_invariant.2.1 (LookupCurve.mk [default]) 0 default (by decide) (by decide)

/-- **C4**: on a sorted curve with valid index `i`, `modify_knot(i, v)` leaves
the list sorted and returns the index at which `v` now resides; it overwrites
in place and returns `i` when `v.position` equals the old position or when the
partition point over x (computed with the old knot still in place) equals `i`;
otherwise it removes index `i` and re-inserts `v` at the partition point,
decremented by one when `i` was below it, returning that insert index. -/
theorem claim_C4_modify_knot (c : LookupCurve) (i : ℕ) (v : Knot)
    (hs : SortedX c.knots) (hi : i < c.knots.length) :
    SortedX (c.modify_knot i v).1.knots ∧
    (c.modify_knot i v).2 < (c.modify_knot i v).1.knots.length ∧
    (c.modify_knot i v).1.knots.getD (c.modify_knot i v).2 default = v ∧
    ((c.knots.getD i default).position = v.position →
      c.modify_knot i v = (⟨c.knots.set i v⟩, i)) ∧
    ((c.knots.getD i default).position ≠ v.position →
      partitionPoint (fun k => decide (k.position.x < v.position.x)) c.knots = i →
      c.modify_knot i v = (⟨c.knots.set i v⟩, i)) ∧
    ((c.knots.getD i default).position ≠ v.position →
      partitionPoint (fun k => decide (k.position.x < v.position.x)) c.knots ≠ i →
      c.modify_knot i v =
        (⟨(c.knots.eraseIdx i).insertIdx
            (if i < partitionPoint (fun k => decide (k.position.x < v.position.x)) c.knots then
              partitionPoint (fun k => decide (k.position.x < v.position.x)) c.knots - 1
            else partitionPoint (fun k => decide (k.position.x < v.position.x)) c.knots) v⟩,
          if i < partitionPoint (fun k => decide (k.position.x < v.position.x)) c.knots then
            partitionPoint (fun k => decide (k.position.x < v.position.x)) c.knots - 1
          else partitionPoint (fun k => decide (k.position.x < v.position.x)) c.knots)) := by
  obtain ⟨l⟩ := c
  obtain ⟨h1, h2, h3, h4⟩ := modify_knot_core l i v hs hi
  refine ⟨h1, ?_, h4, fun hp => modify_knot_eq_pos l i v hp,
    fun hp hq => modify_knot_eq_stay l i v hp hq,
    fun hp hq => modify_knot_eq_move l i v hp hq⟩
  rw [h2]
  exact h3

/-- Witness for C4: moving a knot across its neighbour. -/
theorem claim_C4_witness :
    ((LookupCurve.mk
        [⟨⟨0, 0⟩, KnotInterpolation.Linear, 0, ⟨-(1/10), 0⟩, ⟨1/10, 0⟩⟩,
         ⟨⟨1, 1⟩, KnotInterpolation.Linear, 1, ⟨-(1/10), 0⟩, ⟨1/10, 0⟩⟩]).modify_knot 0
      ⟨⟨5, 0⟩, KnotInterpolation.Linear, 0, ⟨-(1/10), 0⟩, ⟨1/10, 0⟩⟩).1.knots.getD
      (((LookupCurve.mk
        [⟨⟨0, 0⟩, KnotInterpolation.Linear, 0, ⟨-(1/10), 0⟩, ⟨1/10, 0⟩⟩,
         ⟨⟨1, 1⟩, KnotInterpolation.Linear, 1, ⟨-(1/10), 0⟩, ⟨1/10, 0⟩⟩]).modify_knot 0
      ⟨⟨5, 0⟩, KnotInterpolation.Linear, 0, ⟨-(1/10), 0⟩, ⟨1/10, 0⟩⟩).2) default =
      ⟨⟨5, 0⟩, KnotInterpolation.Linear, 0, ⟨-(1/10), 0⟩, ⟨1/10, 0⟩⟩ :=
  (claim_C4_modify_knot _ 0 _ (by decide) (by decide)).2.2.1

/-!
## Claim C2: endpoint exactness
-/

/-- Strictly increasing knot x-values (the single-valued-curve regime). -/
def StrictSortedX (l : List Knot) : Prop :=
  List.Pairwise (fun a b => a.position.x < b.position.x) l

instance : DecidablePred StrictSortedX := fun l =>
  inferInstanceAs (Decidable (List.Pairwise _ l))

/-- **C2 (counterexample)**: on the curve with knots `(0,1)` in Constant mode,
`(2,5)`, `(4,7)`, querying `x = 2` — the x of the second knot — returns the
*first* knot's y (`1`), not `5`: a knot preceded by a Constant-mode knot does
not satisfy endpoint exactness. -/
theorem claim_C2_counterexample :
    (LookupCurve.new
      [⟨⟨0, 1⟩, KnotInterpolation.Constant, 0, ⟨-(1/10), 0⟩, ⟨1/10, 0⟩⟩,
       ⟨⟨2, 5⟩, KnotInterpolation.Linear, 1, ⟨-(1/10), 0⟩, ⟨1/10, 0⟩⟩,
       ⟨⟨4, 7⟩, KnotInterpolation.Linear, 2, ⟨-(1/10), 0⟩, ⟨1/10, 0⟩⟩]).find_y_given_x 2 = 1 ∧
    ((LookupCurve.new
      [⟨⟨0, 1⟩, KnotInterpolation.Constant, 0, ⟨-(1/10), 0⟩, ⟨1/10, 0⟩⟩,
       ⟨⟨2, 5⟩, KnotInterpolation.Linear, 1, ⟨-(1/10), 0⟩, ⟨1/10, 0⟩⟩,
       ⟨⟨4, 7⟩, KnotInterpolation.Linear, 2, ⟨-(1/10), 0⟩, ⟨1/10, 0⟩⟩]).knots.getD 1
      default).position = ⟨2, 5⟩ ∧
    (1 : ℚ) ≠ 5 := by
  refine ⟨by decide, by decide, by norm_num⟩

/-- **C2 (amended)**: on a curve with strictly increasing knot x-values,
`find_y_given_x(k.position.x)` equals `k.position.y` *exactly* (in exact
arithmetic) for the first knot, for the last knot, and for every interior knot
whose preceding knot uses Linear interpolation.  It fails when the preceding
knot uses Constant interpolation (the preceding knot's y is returned), and for
a Bezier predecessor only the Newton best-effort result applies. -/
theorem claim_C2_endpoint_exact (c : LookupCurve) (hs : StrictSortedX c.knots) :
    (c.knots ≠ [] →
      c.find_y_given_x (c.knots.headD default).position.x =
        (c.knots.headD default).position.y) ∧
    (c.knots ≠ [] →
      c.find_y_given_x (c.knots.getLastD default).position.x =
        (c.knots.getLastD default).position.y) ∧
    (∀ j, 0 < j → j + 1 < c.knots.length →
      (c.knots.getD (j - 1) default).interpolation = KnotInterpolation.Linear →
      c.find_y_given_x (c.knots.getD j default).position.x =
        (c.knots.getD j default).position.y) := by
  obtain ⟨l⟩ := c
  cases l with
  | nil =>
    exact ⟨fun h => absurd rfl h, fun h => absurd rfl h, fun j hj hjl => by simp at hjl⟩
  | cons k0 rest =>
    refine ⟨fun _ => ?_, fun _ => ?_, fun j hj hjl hinterp => ?_⟩
    · -- first knot: the `x ≤ first.x` guard fires
      simp only [List.headD_cons, LookupCurve.find_y_given_x]
      rw [if_pos (Or.inr (le_refl _))]
    · -- last knot
      cases rest with
      | nil =>
        have hcond : (([] : List Knot)).length = 0 ∨
            (([k0] : List Knot).getLastD default).position.x ≤ k0.position.x := Or.inl rfl
        simp only [LookupCurve.find_y_given_x]
        rw [if_pos hcond]
        simp [List.getLastD_eq_getLast?]
      | cons k1 rest2 =>
        have hlast :
            (k0 :: k1 :: rest2).getLastD default =
            (k0 :: k1 :: rest2).getLast (List.cons_ne_nil _ _) := by
          simp [List.getLastD_eq_getLast?,
            List.getLast?_eq_getLast _ (List.cons_ne_nil _ _)]
        have hlen : 0 < (k0 :: k1 :: rest2).length - 1 := by simp
        have hfirstlt :
            k0.position.x <
              ((k0 :: k1 :: rest2).getLast (List.cons_ne_nil _ _)).position.x := by
          rw [List.getLast_eq_getElem]
          have := List.pairwise_iff_getElem.mp hs 0 ((k0 :: k1 :: rest2).length - 1)
            (by simp) (by simp) (by simp)
          simpa using this
        rw [hlast]
        simp only [LookupCurve.find_y_given_x]
        rw [if_neg (by
          push_neg
          exact ⟨by simp, hfirstlt⟩)]
        rw [if_pos (le_refl _)]
    · -- interior knot with Linear predecessor
      have hjl2 : j + 1 < (k0 :: rest).length := hjl
      have hlen2 : 1 < (k0 :: rest).length := by omega
      have hjlt : j < (k0 :: rest).length := by omega
      have hjm1 : j - 1 < (k0 :: rest).length := by omega
      have hgetDj : (k0 :: rest).getD j default = (k0 :: rest)[j] :=
        List.getD_eq_getElem _ default hjlt
      have hs2 : List.Pairwise (fun a b => a.position.x < b.position.x) (k0 :: rest) := hs
      have hpairs := List.pairwise_iff_getElem.mp hs2
      have hrl : (k0 :: rest).length = rest.length + 1 := by simp
      -- the query
      have hx0 : k0.position.x < (k0 :: rest)[j].position.x := by
        have := hpairs 0 j (by omega) hjlt (by omega)
        simpa using this
      have hxlast : (k0 :: rest)[j].position.x <
          ((k0 :: rest).getLast (List.cons_ne_nil _ _)).position.x := by
        rw [List.getLast_eq_getElem]
        exact hpairs j ((k0 :: rest).length - 1) hjlt (by omega) (by omega)
      have hpp : partitionPoint
          (fun knot => decide (knot.position.x < (k0 :: rest)[j].position.x))
          (k0 :: rest) = j := by
        refine partitionPoint_eq hjlt (fun k hk hkj => ?_) (by simp)
        simp only [decide_eq_true_eq]
        exact hpairs k j hk hjlt hkj
      rw [hgetDj]
      simp only [LookupCurve.find_y_given_x]
      rw [if_neg (by
        push_neg
        exact ⟨by omega, hx0⟩)]
      rw [if_neg (not_le.mpr hxlast)]
      rw [hpp]
      have hinterp2 : ((k0 :: rest).getD (j - 1) default).interpolation =
          KnotInterpolation.Linear := hinterp
      rw [hinterp2]
      have hb : (k0 :: rest).getD (j - 1 + 1) default = (k0 :: rest)[j] := by
        rw [show j - 1 + 1 = j by omega]
        exact hgetDj
      rw [hb]
      have hane : ((k0 :: rest).getD (j - 1) default).position.x ≠
          (k0 :: rest)[j].position.x := by
        rw [List.getD_eq_getElem _ default hjm1]
        exact ne_of_lt (hpairs (j - 1) j hjm1 hjlt (by omega))
      have hdiv : ((k0 :: rest)[j].position.x -
          ((k0 :: rest).getD (j - 1) default).position.x) /
          ((k0 :: rest)[j].position.x -
          ((k0 :: rest).getD (j - 1) default).position.x) = 1 :=
        div_self (sub_ne_zero.mpr (Ne.symm hane))
      rw [hdiv]
      simp [Vec2.lerp]

/-- Witness for C2: the middle knot of a three-knot Linear curve. -/
theorem claim_C2_witness :
    (LookupCurve.mk
      [⟨⟨0, 0⟩, KnotInterpolation.Linear, 0, ⟨-(1/10), 0⟩, ⟨1/10, 0⟩⟩,
       ⟨⟨1, 1⟩, KnotInterpolation.Linear, 1, ⟨-(1/10), 0⟩, ⟨1/10, 0⟩⟩,
       ⟨⟨2, 2⟩, KnotInterpolation.Linear, 2, ⟨-(1/10), 0⟩, ⟨1/10, 0⟩⟩]).find_y_given_x
      (((LookupCurve.mk
      [⟨⟨0, 0⟩, KnotInterpolation.Linear, 0, ⟨-(1/10), 0⟩, ⟨1/10, 0⟩⟩,
       ⟨⟨1, 1⟩, KnotInterpolation.Linear, 1, ⟨-(1/10), 0⟩, ⟨1/10, 0⟩⟩,
       ⟨⟨2, 2⟩, KnotInterpolation.Linear, 2, ⟨-(1/10), 0⟩, ⟨1/10, 0⟩⟩]).knots.getD 1
        default).position.x) =
      ((LookupCurve.mk
      [⟨⟨0, 0⟩, KnotInterpolation.Linear, 0, ⟨-(1/10), 0⟩, ⟨1/10, 0⟩⟩,
       ⟨⟨1, 1⟩, KnotInterpolation.Linear, 1, ⟨-(1/10), 0⟩, ⟨1/10, 0⟩⟩,
       ⟨⟨2, 2⟩, KnotInterpolation.Linear, 2, ⟨-(1/10), 0⟩, ⟨1/10, 0⟩⟩]).knots.getD 1
        default).position.y :=
  (claim_C2_endpoint_exact _ (by decide)).2.2 1 (by decide) (by decide) (by decide)

/-!
## Claim C3: monotone x-component of the corrected Bezier segment
-/

theorem rtc_x_range (a b : Knot) (hab : a.position.x ≤ b.position.x) :
    a.position.x ≤ (a.position + a.right_tangent_corrected (some b)).x ∧
    (a.position + a.right_tangent_corrected (some b)).x ≤ b.position.x := by
  by_cases h1 : a.right_tangent.x ≤ 0
  · rw [show a.right_tangent_corrected (some b) = ⟨0, a.right_tangent.y⟩ from by
      simp [Knot.right_tangent_corrected, h1]]
    constructor <;> simp [hab]
  · push_neg at h1
    by_cases h2 : b.position.x - a.position.x < a.right_tangent.x
    · rw [show a.right_tangent_corrected (some b) =
        ⟨b.position.x - a.position.x,
         a.right_tangent.y * ((b.position.x - a.position.x) / a.right_tangent.x)⟩ from by
        simp [Knot.right_tangent_corrected, not_le.mpr h1, gt_iff_lt, h2]]
      constructor <;> simp <;> linarith
    · rw [show a.right_tangent_corrected (some b) = a.right_tangent from by
        simp [Knot.right_tangent_corrected, not_le.mpr h1, gt_iff_lt, h2]]
      constructor <;> simp <;> linarith

theorem ltc_x_range (a b : Knot) (hab : a.position.x ≤ b.position.x) :
    a.position.x ≤ (b.position + b.left_tangent_corrected (some a)).x ∧
    (b.position + b.left_tangent_corrected (some a)).x ≤ b.position.x := by
  by_cases h1 : b.left_tangent.x ≥ 0
  · rw [show b.left_tangent_corrected (some a) = ⟨0, b.left_tangent.y⟩ from by
      simp [Knot.left_tangent_corrected, ge_iff_le, h1]]
    constructor <;> simp [hab]
  · push_neg at h1
    by_cases h2 : b.left_tangent.x < a.position.x - b.position.x
    · rw [show b.left_tangent_corrected (some a) =
        ⟨a.position.x - b.position.x,
         b.left_tangent.y * ((a.position.x - b.position.x) / b.left_tangent.x)⟩ from by
        simp [Knot.left_tangent_corrected, ge_iff_le, not_le.mpr h1, h2]]
      constructor <;> simp <;> linarith
    · rw [show b.left_tangent_corrected (some a) = b.left_tangent from by
        simp [Knot.left_tangent_corrected, ge_iff_le, not_le.mpr h1, h2]]
      constructor <;> simp <;> linarith

/-- Non-negativity of the Bernstein form of the derivative of the segment's
x-polynomial, given that both inner control x-coordinates lie between the two
endpoint x-coordinates. -/
theorem bernsteinDerivNonneg (x0 x1 x2 x3 t : ℚ) (h01 : x0 ≤ x1) (h13 : x1 ≤ x3)
    (h02 : x0 ≤ x2) (h23 : x2 ≤ x3) (ht0 : 0 ≤ t) (ht1 : t ≤ 1) :
    0 ≤ (x1 - x0) * (1 - t) ^ 2 + 2 * (x2 - x1) * t * (1 - t) + (x3 - x2) * t ^ 2 := by
  have hu : (0 : ℚ) ≤ 1 - t := by linarith
  rcases le_or_lt x1 x2 with hb | hb
  · have ht3 : (0 : ℚ) ≤ (x1 - x0) * (1 - t) ^ 2 :=
      mul_nonneg (by linarith) (sq_nonneg _)
    have ht4 : (0 : ℚ) ≤ 2 * (x2 - x1) * t * (1 - t) :=
      mul_nonneg (mul_nonneg (by linarith) ht0) hu
    have ht5 : (0 : ℚ) ≤ (x3 - x2) * t ^ 2 :=
      mul_nonneg (by linarith) (sq_nonneg _)
    linarith
  · have key : (x2 - x1) ^ 2 ≤ (x1 - x0) * (x3 - x2) := by
      nlinarith [mul_nonneg (by linarith : (0:ℚ) ≤ x1 - x0) (by linarith : (0:ℚ) ≤ x3 - x1),
        mul_nonneg (by linarith : (0:ℚ) ≤ x2 - x0) (by linarith : (0:ℚ) ≤ x1 - x2)]
    rcases eq_or_lt_of_le (sub_nonneg.mpr h01) with ha0 | ha0
    · -- x1 = x0: then (x2 − x1)² ≤ 0, forcing x2 = x1, contradicting x2 < x1
      have h0 : (x2 - x1) ^ 2 ≤ 0 := by nlinarith [key]
      have : x2 = x1 := by nlinarith [sq_nonneg (x2 - x1)]
      linarith
    · have hq : (0 : ℚ) ≤ (x1 - x0) *
          ((x1 - x0) * (1 - t) ^ 2 + 2 * (x2 - x1) * t * (1 - t) + (x3 - x2) * t ^ 2) := by
        nlinarith [sq_nonneg ((x1 - x0) * (1 - t) + (x2 - x1) * t),
          mul_nonneg (by linarith [key] : (0:ℚ) ≤ (x1 - x0) * (x3 - x2) - (x2 - x1) ^ 2)
            (sq_nonneg t)]
      nlinarith [hq, ha0]

/-- Monotonicity of the segment's x-polynomial on `[0,1]`: the increment from
`t1` to `t2` equals `(t2 − t1)/2` times a Simpson combination of the
(everywhere non-negative) derivative. -/
theorem bezX_mono (x0 x1 x2 x3 t1 t2 : ℚ) (h01 : x0 ≤ x1) (h13 : x1 ≤ x3)
    (h02 : x0 ≤ x2) (h23 : x2 ≤ x3) (ht0 : 0 ≤ t1) (ht12 : t1 ≤ t2) (ht1 : t2 ≤ 1) :
    x0 + (-3*x0 + 3*x1) * t1 + (3*x0 - 6*x1 + 3*x2) * t1^2 +
      (-x0 + 3*x1 - 3*x2 + x3) * t1^3 ≤
    x0 + (-3*x0 + 3*x1) * t2 + (3*x0 - 6*x1 + 3*x2) * t2^2 +
      (-x0 + 3*x1 - 3*x2 + x3) * t2^3 := by
  have hD1 := bernsteinDerivNonneg x0 x1 x2 x3 t1 h01 h13 h02 h23 ht0 (by linarith)
  have hDm := bernsteinDerivNonneg x0 x1 x2 x3 ((t1 + t2) / 2) h01 h13 h02 h23
    (by linarith) (by linarith)
  have hD2 := bernsteinDerivNonneg x0 x1 x2 x3 t2 h01 h13 h02 h23 (by linarith) ht1
  have hsum : (0 : ℚ) ≤ (t2 - t1) *
      (((x1 - x0) * (1 - t1) ^ 2 + 2 * (x2 - x1) * t1 * (1 - t1) + (x3 - x2) * t1 ^ 2) +
       4 * ((x1 - x0) * (1 - (t1 + t2) / 2) ^ 2 +
         2 * (x2 - x1) * ((t1 + t2) / 2) * (1 - (t1 + t2) / 2) +
         (x3 - x2) * ((t1 + t2) / 2) ^ 2) +
       ((x1 - x0) * (1 - t2) ^ 2 + 2 * (x2 - x1) * t2 * (1 - t2) + (x3 - x2) * t2 ^ 2)) :=
    mul_nonneg (by linarith) (by linarith)
  have hid : (x0 + (-3*x0 + 3*x1) * t2 + (3*x0 - 6*x1 + 3*x2) * t2^2 +
      (-x0 + 3*x1 - 3*x2 + x3) * t2^3) -
      (x0 + (-3*x0 + 3*x1) * t1 + (3*x0 - 6*x1 + 3*x2) * t1^2 +
      (-x0 + 3*x1 - 3*x2 + x3) * t1^3) =
      ((t2 - t1) *
      (((x1 - x0) * (1 - t1) ^ 2 + 2 * (x2 - x1) * t1 * (1 - t1) + (x3 - x2) * t1 ^ 2) +
       4 * ((x1 - x0) * (1 - (t1 + t2) / 2) ^ 2 +
         2 * (x2 - x1) * ((t1 + t2) / 2) * (1 - (t1 + t2) / 2) +
         (x3 - x2) * ((t1 + t2) / 2) ^ 2) +
       ((x1 - x0) * (1 - t2) ^ 2 + 2 * (x2 - x1) * t2 * (1 - t2) + (x3 - x2) * t2 ^ 2))) / 2 := by
    ring
  linarith [hsum, hid]

/-- **C3**: for two knots `a`, `b` with `a.position.x ≤ b.position.x`, the
x-component of the cubic segment built in `find_y_given_x` from the control
points `[a.pos, a.pos + a.right_tangent_corrected(b), b.pos +
b.left_tangent_corrected(a), b.pos]` is monotone non-decreasing on the
parametric range `0 ≤ t1 ≤ t2 ≤ 1`. -/
theorem claim_C3_bezier_x_monotone (a b : Knot) (t1 t2 : ℚ)
    (hab : a.position.x ≤ b.position.x) (ht0 : 0 ≤ t1) (ht12 : t1 ≤ t2) (ht1 : t2 ≤ 1) :
    ((CubicSegment.from_bezier_points a.position
        (a.position + a.right_tangent_corrected (some b))
        (b.position + b.left_tangent_corrected (some a))
        b.position).position t1).x ≤
    ((CubicSegment.from_bezier_points a.position
        (a.position + a.right_tangent_corrected (some b))
        (b.position + b.left_tangent_corrected (some a))
        b.position).position t2).x := by
  obtain ⟨hr1, hr2⟩ := rtc_x_range a b hab
  obtain ⟨hl1, hl2⟩ := ltc_x_range a b hab
  have hmono := bezX_mono a.position.x
    (a.position + a.right_tangent_corrected (some b)).x
    (b.position + b.left_tangent_corrected (some a)).x
    b.position.x t1 t2 hr1 hr2 hl1 hl2 ht0 ht12 ht1
  simp only [CubicSegment.from_bezier_points, CubicSegment.coefficients,
    CubicSegment.position, Vec2.add_x, Vec2.hmul_x]
  simp only [Vec2.add_x] at hmono
  ring_nf
  ring_nf at hmono
  linarith [hmono]

/-- Witness for C3 at two concrete knots and `t1 = 0`, `t2 = 1`. -/
theorem claim_C3_witness :
    ((CubicSegment.from_bezier_points
        (⟨⟨0, 0⟩, KnotInterpolation.Bezier, 0, ⟨-(1/10), 0⟩, ⟨1/10, 0⟩⟩ : Knot).position
        ((⟨⟨0, 0⟩, KnotInterpolation.Bezier, 0, ⟨-(1/10), 0⟩, ⟨1/10, 0⟩⟩ : Knot).position +
          Knot.right_tangent_corrected
            ⟨⟨0, 0⟩, KnotInterpolation.Bezier, 0, ⟨-(1/10), 0⟩, ⟨1/10, 0⟩⟩
            (some ⟨⟨1, 1⟩, KnotInterpolation.Linear, 1, ⟨-(1/10), 0⟩, ⟨1/10, 0⟩⟩))
        ((⟨⟨1, 1⟩, KnotInterpolation.Linear, 1, ⟨-(1/10), 0⟩, ⟨1/10, 0⟩⟩ : Knot).position +
          Knot.left_tangent_corrected
            ⟨⟨1, 1⟩, KnotInterpolation.Linear, 1, ⟨-(1/10), 0⟩, ⟨1/10, 0⟩⟩
            (some ⟨⟨0, 0⟩, KnotInterpolation.Bezier, 0, ⟨-(1/10), 0⟩, ⟨1/10, 0⟩⟩))
        (⟨⟨1, 1⟩, KnotInterpolation.Linear, 1, ⟨-(1/10), 0⟩, ⟨1/10, 0⟩⟩ : Knot).position).position
      0).x ≤
    ((CubicSegment.from_bezier_points
        (⟨⟨0, 0⟩, KnotInterpolation.Bezier, 0, ⟨-(1/10), 0⟩, ⟨1/10, 0⟩⟩ : Knot).position
        ((⟨⟨0, 0⟩, KnotInterpolation.Bezier, 0, ⟨-(1/10), 0⟩, ⟨1/10, 0⟩⟩ : Knot).position +
          Knot.right_tangent_corrected
            ⟨⟨0, 0⟩, KnotInterpolation.Bezier, 0, ⟨-(1/10), 0⟩, ⟨1/10, 0⟩⟩
            (some ⟨⟨1, 1⟩, KnotInterpolation.Linear, 1, ⟨-(1/10), 0⟩, ⟨1/10, 0⟩⟩))
        ((⟨⟨1, 1⟩, KnotInterpolation.Linear, 1, ⟨-(1/10), 0⟩, ⟨1/10, 0⟩⟩ : Knot).position +
          Knot.left_tangent_corrected
            ⟨⟨1, 1⟩, KnotInterpolation.Linear, 1, ⟨-(1/10), 0⟩, ⟨1/10, 0⟩⟩
            (some ⟨⟨0, 0⟩, KnotInterpolation.Bezier, 0, ⟨-(1/10), 0⟩, ⟨1/10, 0⟩⟩))
        (⟨⟨1, 1⟩, KnotInterpolation.Linear, 1, ⟨-(1/10), 0⟩, ⟨1/10, 0⟩⟩ : Knot).position).position
      1).x :=
  claim_C3_bezier_x_monotone
    ⟨⟨0, 0⟩, KnotInterpolation.Bezier, 0, ⟨-(1/10), 0⟩, ⟨1/10, 0⟩⟩
    ⟨⟨1, 1⟩, KnotInterpolation.Linear, 1, ⟨-(1/10), 0⟩, ⟨1/10, 0⟩⟩
    0 1 (by norm_num) (by norm_num) (by norm_num) (by norm_num)
